import Mathlib

/-!
Verification of the subtitle search engine
(`subtitle_search_engine.py`, class `SubtitleSearchEngine`).

The Python code is shallowly embedded: strings are Lean `String`s
(manipulated through their `List Char` data), Python `None`/non-string
values are modelled by the small `PyVal` type, float similarity scores are
modelled by `ℚ`, and the external vectorizer/embedding model together with
`sklearn.cosine_similarity` (external libraries, deterministic per the
interface contract) are abstracted as a function from the cleaned query to
the per-chunk similarity list.  Functions that Python writes with
`re.sub`/slicing loops are written as structural recursions (fuelled where
the step size is data-dependent; every lemma carries the fuel-adequacy
hypothesis and instantiates it at the call sites used by the code).
-/

namespace SubtitleSearch

/-- The whitespace characters recognised by Python's `str.split()`,
`str.strip()` and the regex class backslash-s (ASCII range). -/
def isSpaceChar (c : Char) : Bool :=
  c = ' ' || c = '\t' || c = '\n' || c = '\r' || c = '\x0b' || c = '\x0c'

/-- Decimal digits, as matched by the regex class backslash-d (ASCII range). -/
def isDigitChar (c : Char) : Bool :=
  '0' ≤ c && c ≤ '9'

/-! ## Python `str.split()` (split on whitespace runs, dropping empties) -/

/-- Worker for `pySplitChars`: `acc` holds the current word, reversed. -/
def pySplitGo : List Char → List Char → List (List Char)
  | acc, [] => if acc = [] then [] else [acc.reverse]
  | acc, c :: rest =>
    if isSpaceChar c then
      if acc = [] then pySplitGo [] rest else acc.reverse :: pySplitGo [] rest
    else
      pySplitGo (c :: acc) rest

/-- `text.split()` from Python: maximal runs of non-whitespace characters. -/
def pySplitChars (l : List Char) : List (List Char) :=
  pySplitGo [] l

/-- `' '.join(words)` from Python. -/
def joinWords : List (List Char) → List Char
  | [] => []
  | [w] => w
  | w :: ws => w ++ ' ' :: joinWords ws

/-! ## `create_document_chunks` -/

/-- The chunk-start indices produced by
`for i in range(0, n, step): ...append...; if i + c >= n: break`.
Structural fuel recursion; the loop body runs at most `n` times whenever
`0 < step`, which callers establish (`step = chunk_size - overlap` with
`overlap < chunk_size`). -/
def chunkGo (n c step : ℕ) : ℕ → ℕ → List ℕ
  | 0, _ => []
  | fuel + 1, i =>
    if i < n then
      if n ≤ i + c then [i]
      else i :: chunkGo n c step fuel (i + step)
    else []

/-- All start indices emitted by the chunking loop over `n` words. -/
def chunkStarts (n c step : ℕ) : List ℕ :=
  chunkGo n c step n 0

/-- `SubtitleSearchEngine.create_document_chunks(text, chunk_size, overlap)`.

Mirrors the source: empty text returns `[]`; a text of at most
`chunk_size` words is returned whole as the single chunk; otherwise the
loop `for i in range(0, len(words), chunk_size - overlap)` joins the word
windows `words[i : i + chunk_size]`.  In Python the subtraction is on
`int`: a negative step makes `range` empty (the loop emits nothing) and a
zero step raises `ValueError`, modelled as `none`. -/
def create_document_chunks (text : String) (chunk_size overlap : ℕ) :
    Option (List String) :=
  if text = "" then some []
  else
    let words := pySplitChars text.data
    if words.length ≤ chunk_size then some [text]
    else if overlap < chunk_size then
      some ((chunkStarts words.length chunk_size (chunk_size - overlap)).map
        (fun i => String.mk (joinWords ((words.drop i).take chunk_size))))
    else if chunk_size < overlap then some []
    else none

/-! ## `clean_text`

Four `re.sub` passes, in source order: drop timestamp ranges, drop
digit-only lines (MULTILINE), drop markup tags, collapse whitespace runs
to single spaces, then `strip()`. -/

/-- Match a list of character predicates against a prefix of `l`,
returning the remainder on success. -/
def matchPrefixAt : List (Char → Bool) → List Char → Option (List Char)
  | [], l => some l
  | _ :: _, [] => none
  | p :: ps, c :: cs => if p c then matchPrefixAt ps cs else none

/-- One side of the timestamp pattern: two digits, colon, two digits,
colon, two digits, comma, three digits. -/
def tsClockPat : List (Char → Bool) :=
  [isDigitChar, isDigitChar, (· = ':'), isDigitChar, isDigitChar, (· = ':'),
   isDigitChar, isDigitChar, (· = ','), isDigitChar, isDigitChar, isDigitChar]

/-- The full timestamp-range pattern
(clock, space, dash, dash, greater-than, space, clock). -/
def tsPat : List (Char → Bool) :=
  tsClockPat ++
    ([(· = ' '), (· = '-'), (· = '-'), (· = '>'), (· = ' ')] : List (Char → Bool)) ++
    tsClockPat

/-- Try the timestamp pattern at the head of `l`. -/
def matchTs (l : List Char) : Option (List Char) :=
  matchPrefixAt tsPat l

/-- Scanning worker of the timestamp `re.sub`: on a match, continue after
it; otherwise keep one character and continue.  Each match consumes 29
characters, so length-many fuel suffices. -/
def removeTsGo : ℕ → List Char → List Char
  | 0, l => l
  | _ + 1, [] => []
  | fuel + 1, c :: rest =>
    match matchTs (c :: rest) with
    | some rem => removeTsGo fuel rem
    | none => c :: removeTsGo fuel rest

/-- First pass: remove every timestamp-range occurrence. -/
def removeTs (l : List Char) : List Char :=
  removeTsGo l.length l

/-- Split at newline characters (the line structure seen by MULTILINE
anchors); a text with no newline is a single line. -/
def splitNl : List Char → List (List Char)
  | [] => [[]]
  | c :: rest =>
    if c = '\n' then [] :: splitNl rest
    else
      match splitNl rest with
      | [] => [[c]]
      | ln :: lns => (c :: ln) :: lns

/-- Rejoin lines with newlines (inverse of `splitNl`). -/
def joinNl : List (List Char) → List Char
  | [] => []
  | [ln] => ln
  | ln :: lns => ln ++ '\n' :: joinNl lns

/-- A line consisting solely of digits (at least one), the MULTILINE
pattern caret, backslash-d, plus, dollar. -/
def isAllDigits (ln : List Char) : Bool :=
  !ln.isEmpty && ln.all isDigitChar

/-- Second pass: blank out numeric-index lines. -/
def removeDigitLines (l : List Char) : List Char :=
  joinNl ((splitNl l).map (fun ln => if isAllDigits ln then [] else ln))

/-- Scanning worker of the tag `re.sub` for the pattern
less-than, one-or-more non-greater-than, greater-than: at a
less-than sign whose following text has at least one non-greater-than
character and then a greater-than sign, drop through that sign and
continue; otherwise keep one character and continue. -/
def removeTagsGo : ℕ → List Char → List Char
  | 0, l => l
  | _ + 1, [] => []
  | fuel + 1, c :: rest =>
    if c = '<' then
      if !(rest.takeWhile (fun d => !(d = '>'))).isEmpty &&
         !(rest.dropWhile (fun d => !(d = '>'))).isEmpty then
        removeTagsGo fuel (rest.dropWhile (fun d => !(d = '>'))).tail
      else c :: removeTagsGo fuel rest
    else c :: removeTagsGo fuel rest

/-- Third pass: remove markup tags. -/
def removeTags (l : List Char) : List Char :=
  removeTagsGo l.length l

/-- Does the text contain a tag occurrence (the same success condition the
scanner uses, at any position)? -/
def hasTag : List Char → Bool
  | [] => false
  | c :: rest =>
    (c = '<' && !(rest.takeWhile (fun d => !(d = '>'))).isEmpty &&
       !(rest.dropWhile (fun d => !(d = '>'))).isEmpty) || hasTag rest

/-- Fourth pass, first half: replace each maximal run of whitespace by one
space.  The flag records whether the previous character was whitespace. -/
def collapseGoF : Bool → List Char → List Char
  | _, [] => []
  | prevWs, c :: rest =>
    if isSpaceChar c then
      if prevWs then collapseGoF true rest
      else ' ' :: collapseGoF true rest
    else c :: collapseGoF false rest

/-- Replace every whitespace run by a single space. -/
def collapseWs (l : List Char) : List Char :=
  collapseGoF false l

/-- Python `str.strip()`: drop leading and trailing whitespace. -/
def pyStrip (l : List Char) : List Char :=
  (((l.dropWhile isSpaceChar).reverse).dropWhile isSpaceChar).reverse

/-- The whole cleaning pipeline on character lists, in source order. -/
def cleanChars (l : List Char) : List Char :=
  pyStrip (collapseWs (removeTags (removeDigitLines (removeTs l))))

/-- `SubtitleSearchEngine.clean_text` on strings. -/
def clean_text (s : String) : String :=
  String.mk (cleanChars s.data)

/-- A Python value, as far as the code's `isinstance`/truthiness checks
observe it: a string, an integer, or `None`. -/
inductive PyVal where
  | str : String → PyVal
  | int : Int → PyVal
  | pyNone : PyVal
deriving DecidableEq

/-- Python truthiness `not v` for the modelled values. -/
def pyFalsy : PyVal → Bool
  | .str s => s = ""
  | .int n => n = 0
  | .pyNone => true

/-- `isinstance(v, str)`. -/
def isPyStr : PyVal → Bool
  | .str _ => true
  | _ => false

/-- The string payload of a `PyVal` (only consulted after `isinstance`). -/
def pyStr : PyVal → String
  | .str s => s
  | _ => ""

/-- `create_document_chunks` including its `if not text or not
isinstance(text, str): return []` guard on arbitrary Python values. -/
def create_document_chunks_py (v : PyVal) (chunk_size overlap : ℕ) :
    Option (List String) :=
  if pyFalsy v || !(isPyStr v) then some []
  else create_document_chunks (pyStr v) chunk_size overlap

/-- `clean_text` including its `if not isinstance(text, str): return ""`
guard on arbitrary Python values. -/
def clean_text_py (v : PyVal) : String :=
  if isPyStr v then clean_text (pyStr v) else ""

/-! ## `search`

The engine state carries the fields `search` reads: whether
`self.embeddings` is `None`, the `chunk_to_doc_map` built by
`vectorize_documents`, and the corpus rows (`self.subtitle_data`, one
opaque record per document index).  The vectorizer/embedding model plus
`cosine_similarity` — external libraries, deterministic for a fixed model
— are abstracted as `sims : String → List ℚ`, mapping the cleaned query to
the per-chunk similarity array. -/

/-- The error kinds named by the design's error-handling section. -/
inductive SearchError where
  | indexNotBuilt : SearchError
  | emptyQuery : SearchError
  | unsupportedMode : SearchError
deriving DecidableEq

/-- One search hit: a score and the matched document record. -/
structure SearchResult where
  score : ℚ
  document : String
deriving DecidableEq

/-- Equality of call outcomes is decidable (used to evaluate concrete
calls). -/
instance instDecEqExcept {ε α : Type} [DecidableEq ε] [DecidableEq α] :
    DecidableEq (Except ε α)
  | Except.ok a, Except.ok b =>
    if h : a = b then isTrue (by rw [h]) else isFalse (by intro hc; cases hc; exact h rfl)
  | Except.ok _, Except.error _ => isFalse (by intro hc; cases hc)
  | Except.error _, Except.ok _ => isFalse (by intro hc; cases hc)
  | Except.error a, Except.error b =>
    if h : a = b then isTrue (by rw [h]) else isFalse (by intro hc; cases hc; exact h rfl)

/-- The attributes of `SubtitleSearchEngine` that `search` consults. -/
structure EngineState where
  embeddingsBuilt : Bool
  chunk_to_doc_map : List ℕ
  subtitle_data : List String
deriving DecidableEq

/-- Insert chunk index `i` into an index list sorted by ascending
similarity, before the first index of not-smaller similarity (so that the
resulting sort is stable). -/
def insertIdxAsc (s : List ℚ) (i : ℕ) : List ℕ → List ℕ
  | [] => [i]
  | j :: js =>
    if s.getD i 0 ≤ s.getD j 0 then i :: j :: js else j :: insertIdxAsc s i js

/-- `np.argsort(similarities)`: chunk indices by ascending similarity.
numpy's default sort leaves the order of equal entries unspecified; the
model fixes the stable order (ties by ascending index). -/
def argsortAsc (s : List ℚ) : List ℕ :=
  (List.range s.length).foldr (insertIdxAsc s) []

/-- `np.argsort(similarities)[::-1][:top_k*2]`: the surfaced chunk
indices, by descending similarity. -/
def surfacedChunks (s : List ℚ) (top_k : ℕ) : List ℕ :=
  (argsortAsc s).reverse.take (top_k * 2)

/-- One step of the `doc_scores` dictionary update: keep the highest score
if a document appears multiple times, inserting new documents at the end
(Python dictionaries preserve insertion order and keep a key's position on
value update). -/
def setMax : List (ℕ × ℚ) → ℕ → ℚ → List (ℕ × ℚ)
  | [], d, s => [(d, s)]
  | (d₁, s₁) :: rest, d, s =>
    if d₁ = d then (d₁, if s₁ < s then s else s₁) :: rest
    else (d₁, s₁) :: setMax rest d s

/-- The `doc_scores` dictionary after the loop over the surfaced chunk
indices. -/
def buildDocScores (map : List ℕ) (s : List ℚ) (idxs : List ℕ) :
    List (ℕ × ℚ) :=
  idxs.foldl (fun acc ci => setMax acc (map.getD ci 0) (s.getD ci 0)) []

/-- Insert into a list sorted by descending score, before the first entry
of not-larger score (the stable placement Python's `sorted(...,
reverse=True)` gives to earlier elements). -/
def insertDesc (x : ℕ × ℚ) : List (ℕ × ℚ) → List (ℕ × ℚ)
  | [] => [x]
  | y :: ys => if x.2 < y.2 then y :: insertDesc x ys else x :: y :: ys

/-- `sorted(doc_scores.items(), key=lambda x: x[1], reverse=True)`:
stable sort by descending score. -/
def sortDesc (l : List (ℕ × ℚ)) : List (ℕ × ℚ) :=
  l.foldr insertDesc []

/-- `SubtitleSearchEngine.search(query, top_k)`.

Mirrors the source: with no embeddings it prints a message and returns the
empty list (an `Except` codomain records that no branch raises); otherwise
it cleans the query, computes similarities, surfaces `top_k*2` chunk
indices by descending similarity, aggregates per-document maxima in
insertion order, sorts documents by score descending (stable) and keeps
the first `top_k`, attaching each document's record. -/
def search (sims : String → List ℚ) (st : EngineState) (query : String)
    (top_k : ℕ) : Except SearchError (List SearchResult) :=
  if st.embeddingsBuilt = false then Except.ok []
  else
    let similarities := sims (clean_text query)
    let top_indices := surfacedChunks similarities top_k
    let doc_scores := buildDocScores st.chunk_to_doc_map similarities top_indices
    let top_docs := (sortDesc doc_scores).take top_k
    Except.ok (top_docs.map (fun p =>
      { score := p.2, document := st.subtitle_data.getD p.1 "" }))

/-- Keep the first occurrence of each element, dropping later
duplicates. -/
def dedupFirst : List ℕ → List ℕ
  | [] => []
  | d :: ds => d :: (dedupFirst ds).filter (fun x => !(x = d))

/-- The similarities of the surfaced chunks that map to document `d`. -/
def scoresOf (map : List ℕ) (s : List ℚ) (idxs : List ℕ) (d : ℕ) : List ℚ :=
  (idxs.filter (fun ci => map.getD ci 0 = d)).map (fun ci => s.getD ci 0)

/-- Maximum of a list of scores (callers only use nonempty lists). -/
def listMax : List ℚ → ℚ
  | [] => 0
  | x :: xs => xs.foldl max x

/-- The per-document score table described by the specification: the
surfaced chunks' documents in first-encountered order, each with the
maximum similarity among its surfaced chunks. -/
def specDocScores (map : List ℕ) (s : List ℚ) (idxs : List ℕ) :
    List (ℕ × ℚ) :=
  (dedupFirst (idxs.map (fun ci => map.getD ci 0))).map
    (fun d => (d, listMax (scoresOf map s idxs d)))

/-- The ranking pipeline in the specification's words: surface the
highest-scoring chunks, map each back to its document, keep per document
the maximum similarity among its surfaced chunks, sort documents by that
score descending with ties in first-encountered order, truncate to
`top_k`. -/
def searchSpec (sims : String → List ℚ) (st : EngineState) (query : String)
    (top_k : ℕ) : Except SearchError (List SearchResult) :=
  if st.embeddingsBuilt = false then Except.ok []
  else
    let similarities := sims (clean_text query)
    let surfaced := surfacedChunks similarities top_k
    let ranked := sortDesc (specDocScores st.chunk_to_doc_map similarities surfaced)
    Except.ok ((ranked.take top_k).map (fun p =>
      { score := p.2, document := st.subtitle_data.getD p.1 "" }))

/-- The result list of a call (the modelled `search` never raises). -/
def resultsOf : Except SearchError (List SearchResult) → List SearchResult
  | Except.ok l => l
  | Except.error _ => []

/-- A `search` call as a state transition: the method reads
`self.embeddings`, `self.chunk_to_doc_map`, `self.subtitle_data` (and the
frozen model) but assigns no attribute, so the state after the call is the
state before it. -/
def searchCall (sims : String → List ℚ) (st : EngineState) (query : String)
    (top_k : ℕ) : Except SearchError (List SearchResult) × EngineState :=
  (search sims st query top_k, st)

/-! ## The chunking loop: supporting lemmas -/

lemma chunkGo_nil_of_ge {n c step fuel i : ℕ} (h : n ≤ i) :
    chunkGo n c step fuel i = [] := by
  cases fuel with
  | zero => rfl
  | succ f => simp [chunkGo, Nat.not_lt.mpr h]

lemma chunkGo_head {n c step : ℕ} {fuel i : ℕ} (hi : i < n)
    (hfuel : n ≤ i + fuel * step) :
    (chunkGo n c step fuel i).head? = some i := by
  cases fuel with
  | zero => omega
  | succ f =>
    simp only [chunkGo, if_pos hi]
    split <;> rfl

lemma chunkGo_ne_nil {n c step fuel i : ℕ} (hi : i < n)
    (hfuel : n ≤ i + fuel * step) :
    chunkGo n c step fuel i ≠ [] := by
  intro h
  have := chunkGo_head (c := c) hi hfuel
  rw [h] at this
  simp at this

lemma chunkGo_mem_lt {n c step : ℕ} :
    ∀ {fuel i j : ℕ}, j ∈ chunkGo n c step fuel i → j < n := by
  intro fuel
  induction fuel with
  | zero => intro i j h; simp [chunkGo] at h
  | succ f ih =>
    intro i j h
    by_cases hi : i < n
    · simp only [chunkGo, if_pos hi] at h
      by_cases hc : n ≤ i + c
      · rw [if_pos hc] at h; simp at h; omega
      · rw [if_neg hc] at h
        rcases List.mem_cons.mp h with rfl | h
        · exact hi
        · exact ih h
    · simp [chunkGo, hi] at h

lemma chunkGo_chain_strong {n c step : ℕ} :
    ∀ {fuel i : ℕ}, n ≤ i + fuel * step →
      List.Chain' (fun a b => b = a + step ∧ a + c < n) (chunkGo n c step fuel i) := by
  intro fuel
  induction fuel with
  | zero => intro i _; simp [chunkGo]
  | succ f ih =>
    intro i hfuel
    by_cases hi : i < n
    · simp only [chunkGo, if_pos hi]
      by_cases hc : n ≤ i + c
      · simp [hc]
      · rw [if_neg hc]
        have hf : n ≤ i + step + f * step := by
          have : (f + 1) * step = f * step + step := by ring
          omega
        refine List.chain'_cons'.mpr ⟨?_, ih hf⟩
        intro y hy
        by_cases hin : i + step < n
        · rw [chunkGo_head hin hf] at hy
          simp at hy
          omega
        · rw [chunkGo_nil_of_ge (Nat.not_lt.mp hin)] at hy
          simp at hy
    · simp [chunkGo, hi]

lemma chunkGo_getLast {n c step : ℕ} (hsc : step ≤ c) :
    ∀ {fuel i : ℕ}, i < n → n ≤ i + fuel * step →
      ∃ l, (chunkGo n c step fuel i).getLast? = some l ∧ n ≤ l + c := by
  intro fuel
  induction fuel with
  | zero => intro i hi hfuel; omega
  | succ f ih =>
    intro i hi hfuel
    simp only [chunkGo, if_pos hi]
    by_cases hc : n ≤ i + c
    · rw [if_pos hc]; exact ⟨i, rfl, hc⟩
    · rw [if_neg hc]
      have hin : i + step < n := by omega
      have hf : n ≤ i + step + f * step := by
        have : (f + 1) * step = f * step + step := by ring
        omega
      obtain ⟨l, hl, hlc⟩ := ih hin hf
      obtain ⟨y, ys, hys⟩ := List.exists_cons_of_ne_nil (chunkGo_ne_nil hin hf)
      rw [hys] at hl ⊢
      exact ⟨l, by rw [List.getLast?_cons_cons]; exact hl, hlc⟩

lemma chunkGo_dropLast {n c step : ℕ} :
    ∀ {fuel i : ℕ}, n ≤ i + fuel * step →
      ∀ s ∈ (chunkGo n c step fuel i).dropLast, s + c < n := by
  intro fuel
  induction fuel with
  | zero => intro i _ s hs; simp [chunkGo] at hs
  | succ f ih =>
    intro i hfuel s hs
    by_cases hi : i < n
    · simp only [chunkGo, if_pos hi] at hs
      by_cases hc : n ≤ i + c
      · rw [if_pos hc] at hs; simp at hs
      · rw [if_neg hc] at hs
        have hf : n ≤ i + step + f * step := by
          have : (f + 1) * step = f * step + step := by ring
          omega
        by_cases hin : i + step < n
        · obtain ⟨y, ys, hys⟩ := List.exists_cons_of_ne_nil (chunkGo_ne_nil hin hf)
          rw [hys] at hs
          rw [show (i :: y :: ys).dropLast = i :: (y :: ys).dropLast from rfl] at hs
          rcases List.mem_cons.mp hs with rfl | hs
          · omega
          · rw [← hys] at hs; exact ih hf s hs
        · rw [chunkGo_nil_of_ge (Nat.not_lt.mp hin)] at hs
          simp at hs
    · simp [chunkGo, hi] at hs

lemma chunkGo_cover {n c step : ℕ} (hsc : step ≤ c) :
    ∀ {fuel i : ℕ}, n ≤ i + fuel * step → ∀ w, i ≤ w → w < n →
      ∃ s ∈ chunkGo n c step fuel i, s ≤ w ∧ w < s + c := by
  intro fuel
  induction fuel with
  | zero => intro i hfuel w hiw hw; omega
  | succ f ih =>
    intro i hfuel w hiw hw
    have hi : i < n := lt_of_le_of_lt hiw hw
    simp only [chunkGo, if_pos hi]
    by_cases hc : n ≤ i + c
    · rw [if_pos hc]; exact ⟨i, by simp, hiw, by omega⟩
    · rw [if_neg hc]
      by_cases hwc : w < i + c
      · exact ⟨i, List.mem_cons_self _ _, hiw, hwc⟩
      · have hf : n ≤ i + step + f * step := by
          have : (f + 1) * step = f * step + step := by ring
          omega
        obtain ⟨s, hs, h1, h2⟩ := ih hf w (by omega) hw
        exact ⟨s, List.mem_cons_of_mem _ hs, h1, h2⟩

lemma n_le_mul {n step : ℕ} (hstep : 0 < step) : n ≤ 0 + n * step := by
  have := Nat.mul_le_mul_left n hstep
  simpa using this

/-! ## Words, joins and windows: supporting lemmas -/

lemma pySplitGo_cons_space {acc : List Char} {c : Char} {rest : List Char}
    (hc : isSpaceChar c = true) (ha : acc ≠ []) :
    pySplitGo acc (c :: rest) = acc.reverse :: pySplitGo [] rest := by
  simp only [pySplitGo]
  rw [if_pos hc, if_neg ha]

lemma pySplitGo_cons_nonspace {acc : List Char} {c : Char} {rest : List Char}
    (hc : isSpaceChar c = false) :
    pySplitGo acc (c :: rest) = pySplitGo (c :: acc) rest := by
  simp only [pySplitGo]
  rw [if_neg (by simp [hc])]

lemma pySplitGo_words {l acc : List Char}
    (hacc : ∀ ch ∈ acc, isSpaceChar ch = false) :
    ∀ w ∈ pySplitGo acc l, w ≠ [] ∧ ∀ ch ∈ w, isSpaceChar ch = false := by
  induction l generalizing acc with
  | nil =>
    intro w hw
    by_cases ha : acc = []
    · simp [pySplitGo, ha] at hw
    · simp only [pySplitGo, if_neg ha, List.mem_singleton] at hw
      subst hw
      exact ⟨by simpa using ha, fun ch hch => hacc ch (List.mem_reverse.mp hch)⟩
  | cons c rest ih =>
    intro w hw
    by_cases hs : isSpaceChar c = true
    · by_cases ha : acc = []
      · subst ha
        rw [show pySplitGo [] (c :: rest) = pySplitGo [] rest by
          simp only [pySplitGo]; rw [if_pos hs]; simp] at hw
        exact ih (by simp) w hw
      · rw [pySplitGo_cons_space hs ha] at hw
        rcases List.mem_cons.mp hw with rfl | hw
        · exact ⟨by simpa using ha, fun ch hch => hacc ch (List.mem_reverse.mp hch)⟩
        · exact ih (by simp) w hw
    · rw [pySplitGo_cons_nonspace (by simpa using hs)] at hw
      refine ih ?_ w hw
      intro ch hch
      rcases List.mem_cons.mp hch with rfl | hch
      · simpa using hs
      · exact hacc ch hch

lemma pySplit_words (l : List Char) :
    ∀ w ∈ pySplitChars l, w ≠ [] ∧ ∀ ch ∈ w, isSpaceChar ch = false :=
  pySplitGo_words (by simp)

lemma pySplitGo_nonws {w : List Char} (hw : ∀ ch ∈ w, isSpaceChar ch = false) :
    ∀ (acc l : List Char), pySplitGo acc (w ++ l) = pySplitGo (w.reverse ++ acc) l := by
  induction w with
  | nil => intro acc l; simp
  | cons c w ih =>
    intro acc l
    have hc : isSpaceChar c = false := hw c (by simp)
    rw [List.cons_append, pySplitGo_cons_nonspace hc,
      ih (fun d hd => hw d (by simp [hd])) (c :: acc) l]
    congr 1
    simp

lemma pySplit_single {w : List Char} (hne : w ≠ [])
    (hw : ∀ ch ∈ w, isSpaceChar ch = false) :
    pySplitChars w = [w] := by
  have h := pySplitGo_nonws hw [] []
  simp only [List.append_nil] at h
  unfold pySplitChars
  rw [h]
  simp only [pySplitGo]
  rw [if_neg (by simpa using hne), List.reverse_reverse]

lemma pySplit_join (ws : List (List Char))
    (h : ∀ w ∈ ws, w ≠ [] ∧ ∀ ch ∈ w, isSpaceChar ch = false) :
    pySplitChars (joinWords ws) = ws := by
  induction ws with
  | nil => rfl
  | cons w ws ih =>
    cases ws with
    | nil =>
      obtain ⟨hne, hnws⟩ := h w (by simp)
      simpa [joinWords] using pySplit_single hne hnws
    | cons v ws =>
      obtain ⟨hne, hnws⟩ := h w (by simp)
      show pySplitChars (w ++ ' ' :: joinWords (v :: ws)) = w :: v :: ws
      unfold pySplitChars
      rw [pySplitGo_nonws hnws [] (' ' :: joinWords (v :: ws)), List.append_nil,
        pySplitGo_cons_space (by decide) (by simpa using hne), List.reverse_reverse]
      have := ih (fun u hu => h u (List.mem_cons_of_mem _ hu))
      unfold pySplitChars at this
      rw [this]

lemma window_overlap {α : Type} (w : List α) (s c o : ℕ) (ho : o ≤ c) :
    ((w.drop s).take c).drop (c - o) = ((w.drop (s + (c - o))).take c).take o := by
  rw [List.drop_take, List.drop_drop, List.take_take]
  congr 1
  omega

lemma window_overlap_len {α : Type} (w : List α) (s c o : ℕ) (ho : o ≤ c)
    (h : s + c ≤ w.length) :
    (((w.drop (s + (c - o))).take c).take o).length = o := by
  rw [List.take_take, List.length_take, List.length_drop]
  omega

/-! ## Claims about the chunking loop -/

lemma pySplit_window (words : List (List Char))
    (hwords : ∀ w ∈ words, w ≠ [] ∧ ∀ ch ∈ w, isSpaceChar ch = false) (i c : ℕ) :
    pySplitChars (String.mk (joinWords ((words.drop i).take c))).data =
      (words.drop i).take c := by
  refine pySplit_join _ ?_
  intro w hw
  exact hwords w (List.drop_subset _ _ (List.take_subset _ _ hw))

lemma empty_split : (pySplitChars ("" : String).data).length = 0 := rfl

/-- Claim C3: for texts longer than `chunk_size` words (with `0 < overlap
< chunk_size`), the chunker emits exactly the windows of width
`chunk_size` starting at `0, step, 2·step, …` with `step = chunk_size -
overlap`; it stops with the first window whose end reaches or exceeds the
word count (all earlier windows end strictly inside the text); starts are
emitted in non-decreasing order, never beyond the text, and every word
index is covered by at least one window. -/
theorem c3_chunk_loop (text : String) (c o : ℕ)
    (ho : 0 < o) (hoc : o < c)
    (hn : c < (pySplitChars text.data).length) :
    create_document_chunks text c o =
      some ((chunkStarts (pySplitChars text.data).length c (c - o)).map
        (fun i => String.mk (joinWords
          (((pySplitChars text.data).drop i).take c)))) ∧
    (chunkStarts (pySplitChars text.data).length c (c - o)).head? = some 0 ∧
    List.Chain' (fun a b => b = a + (c - o))
      (chunkStarts (pySplitChars text.data).length c (c - o)) ∧
    (∀ s ∈ chunkStarts (pySplitChars text.data).length c (c - o),
      s < (pySplitChars text.data).length) ∧
    List.Pairwise (· ≤ ·)
      (chunkStarts (pySplitChars text.data).length c (c - o)) ∧
    (∀ w < (pySplitChars text.data).length,
      ∃ s ∈ chunkStarts (pySplitChars text.data).length c (c - o),
        s ≤ w ∧ w < s + c) ∧
    (∃ l, (chunkStarts (pySplitChars text.data).length c (c - o)).getLast? =
        some l ∧ (pySplitChars text.data).length ≤ l + c) ∧
    (∀ s ∈ (chunkStarts (pySplitChars text.data).length c (c - o)).dropLast,
      s + c < (pySplitChars text.data).length) := by
  have hstep : 0 < c - o := by omega
  have hsc : c - o ≤ c := by omega
  have h0 : (pySplitChars text.data).length ≤
      0 + (pySplitChars text.data).length * (c - o) := n_le_mul hstep
  have hpos : 0 < (pySplitChars text.data).length := by omega
  have htext : ¬(text = "") := by
    intro he
    rw [he] at hn
    rw [empty_split] at hn
    omega
  refine ⟨?_, ?_, ?_, ?_, ?_, ?_, ?_, ?_⟩
  · simp only [create_document_chunks, if_neg htext]
    rw [if_neg (Nat.not_le.mpr hn), if_pos hoc]
  · exact chunkGo_head hpos h0
  · exact (chunkGo_chain_strong h0).imp (fun _ _ h => h.1)
  · intro s hs
    exact chunkGo_mem_lt hs
  · refine List.chain'_iff_pairwise.mp ?_
    exact (chunkGo_chain_strong h0).imp (fun _ _ h => by omega)
  · intro w hw
    exact chunkGo_cover hsc h0 w (Nat.zero_le w) hw
  · exact chunkGo_getLast hsc hpos h0
  · exact chunkGo_dropLast h0

/-- Witness for claim C3 on a five-word text with window 2, overlap 1. -/
theorem c3_witness :
    (0 < 1 ∧ 1 < 2 ∧ 2 < (pySplitChars "a b c d e".data).length) ∧
    create_document_chunks "a b c d e" 2 1 =
      some ((chunkStarts (pySplitChars "a b c d e".data).length 2 (2 - 1)).map
        (fun i => String.mk (joinWords
          (((pySplitChars "a b c d e".data).drop i).take 2)))) :=
  ⟨⟨by decide, by decide, by decide⟩,
    (c3_chunk_loop "a b c d e" 2 1 (by decide) (by decide) (by decide)).1⟩

/-- Claim C7: every chunk the chunker produces has at most `chunk_size`
words, and each pair of consecutive chunks overlaps in exactly `overlap`
words — the last `overlap` words of a chunk are the first `overlap` words
of the next (in the code the overlap is exact for every adjacent pair,
which is within the claim's allowance for the final chunk). -/
theorem c7_chunk_invariants (text : String) (c o : ℕ)
    (ho : 0 < o) (hoc : o < c) (res : List String)
    (hres : create_document_chunks text c o = some res) :
    (∀ ch ∈ res, (pySplitChars ch.data).length ≤ c) ∧
    List.Chain' (fun ch₁ ch₂ =>
      (pySplitChars ch₁.data).drop (c - o) = (pySplitChars ch₂.data).take o ∧
      ((pySplitChars ch₂.data).take o).length = o) res := by
  by_cases htext : text = ""
  · subst htext
    rw [show create_document_chunks "" c o = some [] from rfl] at hres
    injection hres with h
    subst h
    exact ⟨by simp, by simp⟩
  · simp only [create_document_chunks, if_neg htext] at hres
    by_cases hlen : (pySplitChars text.data).length ≤ c
    · rw [if_pos hlen] at hres
      injection hres with h
      subst h
      refine ⟨?_, by simp⟩
      intro ch hch
      rw [List.mem_singleton] at hch
      subst hch
      exact hlen
    · rw [if_neg hlen, if_pos hoc] at hres
      injection hres with h
      subst h
      have hwords := pySplit_words text.data
      have hn := Nat.not_le.mp hlen
      have hstep : 0 < c - o := by omega
      have h0 : (pySplitChars text.data).length ≤
          0 + (pySplitChars text.data).length * (c - o) := n_le_mul hstep
      constructor
      · intro ch hch
        rw [List.mem_map] at hch
        obtain ⟨i, _, rfl⟩ := hch
        rw [pySplit_window _ hwords i c, List.length_take]
        omega
      · rw [List.chain'_map]
        refine (chunkGo_chain_strong h0).imp ?_
        intro a b hab
        rw [pySplit_window _ hwords a c, pySplit_window _ hwords b c]
        obtain ⟨rfl, hacn⟩ := hab
        refine ⟨?_, ?_⟩
        · exact window_overlap _ a c o (by omega)
        · exact window_overlap_len _ a c o (by omega) (by omega)

/-- Witness for claim C7 on a five-word text with window 2, overlap 1. -/
theorem c7_witness :
    (0 < 1 ∧ 1 < 2 ∧
      create_document_chunks "a b c d e" 2 1 =
        some ["a b", "b c", "c d", "d e"]) ∧
    (∀ ch ∈ ["a b", "b c", "c d", "d e"],
      (pySplitChars ch.data).length ≤ 2) ∧
    List.Chain' (fun ch₁ ch₂ =>
      (pySplitChars ch₁.data).drop (2 - 1) = (pySplitChars ch₂.data).take 1 ∧
      ((pySplitChars ch₂.data).take 1).length = 1)
      ["a b", "b c", "c d", "d e"] :=
  ⟨⟨by decide, by decide, by decide⟩,
    c7_chunk_invariants "a b c d e" 2 1 (by decide) (by decide)
      ["a b", "b c", "c d", "d e"] (by decide)⟩

/-! ## Claims about `search` availability and error behaviour -/

/-- Claim C1, counterexample: invoking `search` with no embeddings built
completes normally with an empty result list; it does not surface an
`IndexNotBuiltError` (or any error) to the caller. -/
theorem c1_counterexample :
    search (fun _ => ([] : List ℚ)) (EngineState.mk false [] []) "the query" 5 =
      Except.ok [] := by
  rfl

/-- Claim C1, amended: if `search` is invoked before the index has been
built (no embeddings exist), the call prints a message and returns the
empty result list without raising; no `IndexNotBuiltError` reaches the
caller. -/
theorem c1_unbuilt_returns_ok_empty (sims : String → List ℚ)
    (st : EngineState) (q : String) (k : ℕ)
    (h : st.embeddingsBuilt = false) :
    search sims st q k = Except.ok [] := by
  simp [search, h]

/-- Witness for the amended claim C1 at a concrete unbuilt state. -/
theorem c1_witness :
    (EngineState.mk false [] []).embeddingsBuilt = false ∧
    search (fun _ => ([] : List ℚ)) (EngineState.mk false [] []) "q" 3 =
      Except.ok [] :=
  ⟨rfl, c1_unbuilt_returns_ok_empty _ _ _ _ rfl⟩

/-- Claim C2, counterexample: on a built one-chunk index, the
whitespace-only query is cleaned to the empty string and still ranked like
any other query, so `search` returns a non-empty result list (here one
document with score zero, as the TF-IDF path gives an empty query), not an
empty result sequence. -/
theorem c2_counterexample :
    (EngineState.mk true [0] ["doc0"]).embeddingsBuilt = true ∧
    " ".data.all isSpaceChar = true ∧
    search (fun _ => [(0 : ℚ)]) (EngineState.mk true [0] ["doc0"]) " " 5 ≠
      Except.ok [] := by
  refine ⟨rfl, rfl, ?_⟩
  decide

/-! ## Claims about `create_document_chunks` degenerate inputs -/

/-- Claim C10: for every `chunk_size` and `overlap`, the chunker returns
the empty chunk list on the empty string and on every non-string value
(the guard `if not text or not isinstance(text, str)` fires before any
splitting). -/
theorem c10_empty_or_nonstring (c o : ℕ) :
    create_document_chunks_py (PyVal.str "") c o = some [] ∧
    ∀ v : PyVal, isPyStr v = false → create_document_chunks_py v c o = some [] := by
  constructor
  · simp [create_document_chunks_py, pyFalsy]
  · intro v h
    simp [create_document_chunks_py, h]

/-- Witness for claim C10 at `None` and at the empty string. -/
theorem c10_witness :
    isPyStr PyVal.pyNone = false ∧
    create_document_chunks_py PyVal.pyNone 500 100 = some [] ∧
    create_document_chunks_py (PyVal.str "") 500 100 = some [] :=
  ⟨rfl, (c10_empty_or_nonstring 500 100).2 PyVal.pyNone rfl,
    (c10_empty_or_nonstring 500 100).1⟩

/-- Claim C6, counterexample: the empty string has word count `0 ≤
chunk_size`, yet the chunker returns no chunk at all rather than one chunk
equal to the (empty) source text. -/
theorem c6_counterexample :
    create_document_chunks "" 500 100 = some [] ∧
    create_document_chunks "" 500 100 ≠ some [""] := by
  refine ⟨rfl, ?_⟩
  decide

/-- Claim C6, amended: for every nonempty text whose word count is at most
`chunk_size` (with `0 < overlap < chunk_size`), the chunker yields exactly
one chunk, the whole source text. -/
theorem c6_single_chunk (text : String) (c o : ℕ)
    (ho : 0 < o) (hoc : o < c) (hne : text ≠ "")
    (hlen : (pySplitChars text.data).length ≤ c) :
    create_document_chunks text c o = some [text] := by
  simp [create_document_chunks, hne, hlen]

/-- Witness for the amended claim C6. -/
theorem c6_witness :
    (0 < 100 ∧ 100 < 500 ∧ "hi there" ≠ "" ∧
      (pySplitChars "hi there".data).length ≤ 500) ∧
    create_document_chunks "hi there" 500 100 = some ["hi there"] :=
  ⟨⟨by decide, by decide, by decide, by decide⟩,
    c6_single_chunk "hi there" 500 100 (by decide) (by decide) (by decide)
      (by decide)⟩

/-! ## Claims about `clean_text` totality and `search` determinism -/

/-- Claim C8: `clean_text` is a total pure function of its argument (it is
a Lean function, so determinism and totality are by construction); it
returns the empty string on the empty string and on every non-string
input. -/
theorem c8_clean_total :
    clean_text "" = "" ∧
    ∀ v : PyVal, isPyStr v = false → clean_text_py v = "" := by
  refine ⟨rfl, ?_⟩
  intro v h
  simp [clean_text_py, h]

/-- Witness for claim C8 at a concrete non-string value. -/
theorem c8_witness :
    isPyStr (PyVal.int 3) = false ∧ clean_text_py (PyVal.int 3) = "" :=
  ⟨rfl, c8_clean_total.2 (PyVal.int 3) rfl⟩

/-- Claim C9: a `search` call writes no engine attribute (the returned
state is the incoming state), so repeating the call on the unchanged index
with the same query and `top_k` returns the identical ordered result
sequence. -/
theorem c9_search_deterministic (sims : String → List ℚ) (st : EngineState)
    (q : String) (k : ℕ) :
    (searchCall sims st q k).2 = st ∧
    (searchCall sims (searchCall sims st q k).2 q k).1 =
      (searchCall sims st q k).1 :=
  ⟨rfl, rfl⟩

/-! ## The ranking pipeline: supporting lemmas -/

lemma if_lt_max (a b : ℚ) : (if a < b then b else a) = max a b := by
  rcases lt_or_ge a b with h | h
  · rw [if_pos h, max_eq_right h.le]
  · rw [if_neg (not_lt.mpr h), max_eq_left h]

lemma setMax_cons_eq {d : ℕ} {s₁ s : ℚ} {L : List (ℕ × ℚ)} :
    setMax ((d, s₁) :: L) d s = (d, max s₁ s) :: L := by
  show (if d = d then (d, if s₁ < s then s else s₁) :: L
        else (d, s₁) :: setMax L d s) = _
  rw [if_pos rfl, if_lt_max]

lemma setMax_cons_ne {d₁ d : ℕ} {s₁ s : ℚ} {L : List (ℕ × ℚ)} (h : d₁ ≠ d) :
    setMax ((d₁, s₁) :: L) d s = (d₁, s₁) :: setMax L d s := by
  show (if d₁ = d then (d₁, if s₁ < s then s else s₁) :: L
        else (d₁, s₁) :: setMax L d s) = _
  rw [if_neg h]

lemma setMax_absent {L : List (ℕ × ℚ)} {d : ℕ} (h : d ∉ L.map Prod.fst) (s : ℚ) :
    setMax L d s = L ++ [(d, s)] := by
  induction L with
  | nil => rfl
  | cons p L ih =>
    obtain ⟨d₁, s₁⟩ := p
    simp only [List.map_cons, List.mem_cons] at h
    push_neg at h
    obtain ⟨h1, h2⟩ := h
    rw [setMax_cons_ne h1.symm, ih h2]
    rfl

lemma setMax_mapped {D : List ℕ} {M : ℕ → ℚ} (hD : D.Nodup) {d : ℕ}
    (hd : d ∈ D) (s : ℚ) :
    setMax (D.map (fun x => (x, M x))) d s =
      D.map (fun x => (x, if x = d then max (M d) s else M x)) := by
  induction D with
  | nil => simp at hd
  | cons x D ih =>
    by_cases hxd : x = d
    · subst hxd
      rw [List.map_cons, setMax_cons_eq, List.map_cons, if_pos rfl]
      congr 1
      refine (List.map_congr_left ?_).symm
      intro y hy
      have hne : y ≠ x := by
        intro he
        subst he
        exact (List.nodup_cons.mp hD).1 hy
      rw [if_neg hne]
    · have hdD : d ∈ D := by
        rcases List.mem_cons.mp hd with he | hdD
        · exact absurd he.symm hxd
        · exact hdD
      rw [List.map_cons, setMax_cons_ne hxd, List.map_cons, if_neg hxd,
        ih (List.nodup_cons.mp hD).2 hdD]

lemma mem_dedupFirst {l : List ℕ} {d : ℕ} : d ∈ dedupFirst l ↔ d ∈ l := by
  induction l with
  | nil => simp [dedupFirst]
  | cons x l ih =>
    simp only [dedupFirst, List.mem_cons, List.mem_filter]
    constructor
    · rintro (rfl | ⟨hm, _⟩)
      · exact Or.inl rfl
      · exact Or.inr (ih.mp hm)
    · rintro (rfl | hm)
      · exact Or.inl rfl
      · by_cases hxd : d = x
        · exact Or.inl hxd
        · exact Or.inr ⟨ih.mpr hm, by simp [hxd]⟩

lemma nodup_dedupFirst (l : List ℕ) : (dedupFirst l).Nodup := by
  induction l with
  | nil => simp [dedupFirst]
  | cons x l ih =>
    simp only [dedupFirst, List.nodup_cons]
    constructor
    · intro hmem
      rcases List.mem_filter.mp hmem with ⟨_, hne⟩
      simp at hne
    · exact ih.filter _

lemma dedupFirst_append_singleton (l : List ℕ) (d : ℕ) :
    dedupFirst (l ++ [d]) =
      if d ∈ l then dedupFirst l else dedupFirst l ++ [d] := by
  induction l with
  | nil => simp [dedupFirst]
  | cons x l ih =>
    show dedupFirst (x :: (l ++ [d])) = _
    rw [show dedupFirst (x :: (l ++ [d])) =
        x :: (dedupFirst (l ++ [d])).filter (fun y => !(y = x)) from rfl]
    rw [ih]
    by_cases hdl : d ∈ l
    · rw [if_pos hdl, if_pos (List.mem_cons_of_mem _ hdl)]
      rfl
    · rw [if_neg hdl, List.filter_append]
      by_cases hdx : d = x
      · subst hdx
        rw [if_pos (List.mem_cons_self _ _)]
        simp [dedupFirst]
      · rw [if_neg (by simp [hdx, hdl])]
        simp only [List.filter_cons, List.filter_nil]
        rw [if_pos (by simp [hdx])]
        rfl

lemma filterScores_append (f : ℕ → ℕ) (g : ℕ → ℚ) (idxs : List ℕ) (i d : ℕ) :
    (((idxs ++ [i]).filter (fun ci => f ci = d)).map g) =
      ((idxs.filter (fun ci => f ci = d)).map g) ++
        (if f i = d then [g i] else []) := by
  rw [List.filter_append, List.map_append]
  congr 1
  rw [List.filter_singleton]
  by_cases h : f i = d
  · rw [if_pos h]
    simp [h]
  · rw [if_neg h]
    simp [h]

lemma filterScores_ne_nil (f : ℕ → ℕ) (g : ℕ → ℚ) {idxs : List ℕ} {d : ℕ}
    (h : d ∈ idxs.map f) :
    ((idxs.filter (fun ci => f ci = d)).map g) ≠ [] := by
  obtain ⟨ci, hci, hd⟩ := List.mem_map.mp h
  intro hnil
  rw [List.map_eq_nil_iff] at hnil
  have hmem : ci ∈ idxs.filter (fun ci => decide (f ci = d)) :=
    List.mem_filter.mpr ⟨hci, by simpa using hd⟩
  rw [hnil] at hmem
  simp at hmem

lemma filterScores_nil (f : ℕ → ℕ) (g : ℕ → ℚ) {idxs : List ℕ} {d : ℕ}
    (h : d ∉ idxs.map f) :
    ((idxs.filter (fun ci => f ci = d)).map g) = [] := by
  rw [List.map_eq_nil_iff, List.filter_eq_nil_iff]
  intro ci hci hdec
  rw [decide_eq_true_eq] at hdec
  exact h (List.mem_map.mpr ⟨ci, hci, hdec⟩)

lemma listMax_append_singleton {xs : List ℚ} (h : xs ≠ []) (v : ℚ) :
    listMax (xs ++ [v]) = max (listMax xs) v := by
  obtain ⟨x, xs, rfl⟩ := List.exists_cons_of_ne_nil h
  simp only [List.cons_append, listMax]
  rw [List.foldl_append]
  rfl

lemma fold_setMax_eq (f : ℕ → ℕ) (g : ℕ → ℚ) (idxs : List ℕ) :
    idxs.foldl (fun acc ci => setMax acc (f ci) (g ci)) [] =
      (dedupFirst (idxs.map f)).map
        (fun d => (d, listMax ((idxs.filter (fun ci => f ci = d)).map g))) := by
  induction idxs using List.reverseRecOn with
  | nil => rfl
  | append_singleton idxs i ih =>
    rw [List.foldl_append, List.foldl_cons, List.foldl_nil, ih, List.map_append,
      List.map_singleton, dedupFirst_append_singleton]
    by_cases hmem : f i ∈ idxs.map f
    · rw [if_pos hmem]
      rw [setMax_mapped (nodup_dedupFirst _) (mem_dedupFirst.mpr hmem) (g i)]
      refine List.map_congr_left ?_
      intro x hx
      by_cases hxfi : x = f i
      · subst hxfi
        rw [if_pos rfl, filterScores_append,
          if_pos rfl,
          listMax_append_singleton (filterScores_ne_nil f g hmem) (g i)]
      · rw [if_neg hxfi, filterScores_append, if_neg (fun he => hxfi he.symm)]
        rw [List.append_nil]
    · rw [if_neg hmem]
      have hkeys : f i ∉
          ((dedupFirst (idxs.map f)).map
            (fun d => (d, listMax ((idxs.filter (fun ci => f ci = d)).map g)))).map
              Prod.fst := by
        rw [List.map_map]
        simp only [Function.comp_def]
        rw [List.map_id']
        exact fun hc => hmem (mem_dedupFirst.mp hc)
      rw [setMax_absent hkeys (g i), List.map_append, List.map_singleton]
      congr 1
      · refine List.map_congr_left ?_
        intro x hx
        have hxfi : x ≠ f i := by
          intro he
          subst he
          exact hmem (mem_dedupFirst.mp hx)
        rw [filterScores_append, if_neg (fun he => hxfi he.symm), List.append_nil]
      · rw [filterScores_append, if_pos rfl, filterScores_nil f g hmem]
        rfl

lemma buildDocScores_eq_spec (map : List ℕ) (s : List ℚ) (idxs : List ℕ) :
    buildDocScores map s idxs = specDocScores map s idxs :=
  fold_setMax_eq (fun ci => map.getD ci 0) (fun ci => s.getD ci 0) idxs

/-! ## Claims about the ranking pipeline -/

lemma search_eq_spec (sims : String → List ℚ) (st : EngineState) (q : String)
    (k : ℕ) : search sims st q k = searchSpec sims st q k := by
  unfold search searchSpec
  by_cases h : st.embeddingsBuilt = false
  · rw [if_pos h, if_pos h]
  · rw [if_neg h, if_neg h]
    simp only [buildDocScores_eq_spec]

lemma mem_insertDesc {x y : ℕ × ℚ} {l : List (ℕ × ℚ)} :
    y ∈ insertDesc x l ↔ y = x ∨ y ∈ l := by
  induction l with
  | nil => simp [insertDesc]
  | cons z l ih =>
    simp only [insertDesc]
    by_cases h : x.2 < z.2
    · rw [if_pos h]
      simp only [List.mem_cons, ih]
      tauto
    · rw [if_neg h]
      simp

lemma insertDesc_sorted {l : List (ℕ × ℚ)} (x : ℕ × ℚ)
    (hl : List.Pairwise (fun a b => b.2 ≤ a.2) l) :
    List.Pairwise (fun a b => b.2 ≤ a.2) (insertDesc x l) := by
  induction l with
  | nil => simp [insertDesc]
  | cons z l ih =>
    simp only [insertDesc]
    rcases List.pairwise_cons.mp hl with ⟨hz, hl2⟩
    by_cases h : x.2 < z.2
    · rw [if_pos h]
      refine List.pairwise_cons.mpr ⟨?_, ih hl2⟩
      intro y hy
      rcases mem_insertDesc.mp hy with rfl | hy
      · exact h.le
      · exact hz y hy
    · rw [if_neg h]
      refine List.pairwise_cons.mpr ⟨?_, hl⟩
      intro y hy
      rcases List.mem_cons.mp hy with rfl | hy
      · exact not_lt.mp h
      · exact (hz y hy).trans (not_lt.mp h)

lemma sortDesc_sorted (l : List (ℕ × ℚ)) :
    List.Pairwise (fun a b => b.2 ≤ a.2) (sortDesc l) := by
  induction l with
  | nil => simp [sortDesc]
  | cons x l ih => exact insertDesc_sorted x ih

lemma length_insertIdxAsc (s : List ℚ) (i : ℕ) (l : List ℕ) :
    (insertIdxAsc s i l).length = l.length + 1 := by
  induction l with
  | nil => rfl
  | cons j js ih =>
    simp only [insertIdxAsc]
    by_cases h : s.getD i 0 ≤ s.getD j 0
    · rw [if_pos h]
      rfl
    · rw [if_neg h]
      simp [ih]

lemma length_argsortAsc (s : List ℚ) : (argsortAsc s).length = s.length := by
  unfold argsortAsc
  have h : ∀ (l : List ℕ), (l.foldr (insertIdxAsc s) []).length = l.length := by
    intro l
    induction l with
    | nil => rfl
    | cons j js ih => simp [List.foldr_cons, length_insertIdxAsc, ih]
  rw [h, List.length_range]

lemma length_surfacedChunks (s : List ℚ) (k : ℕ) :
    (surfacedChunks s k).length = min (k * 2) s.length := by
  unfold surfacedChunks
  rw [List.length_take, List.length_reverse, length_argsortAsc]

/-- Claim C4, counterexample: on a one-chunk index with `topK = 1` the
code surfaces `min(2·topK, number of chunks) = 1` chunk, not at least
`2·topK = 2` of them (`search` retrieves exactly the indices
`surfacedChunks` yields). -/
theorem c4_counterexample :
    (surfacedChunks [(1 : ℚ)] 1).length = 1 ∧
    ¬(2 * 1 ≤ (surfacedChunks [(1 : ℚ)] 1).length) := by
  refine ⟨?_, ?_⟩ <;> decide

/-- Claim C4, amended: `search` retrieves the `min(2·topK, chunk count)`
highest-scoring chunks and otherwise behaves exactly as specified — it
equals, call for call, the specification pipeline that maps each surfaced
chunk to its document through `chunk_to_doc_map`, keeps per document the
maximum similarity among its surfaced chunks, sorts documents by that
score descending with ties in first-encountered order (a stable sort over
the first-encounter document list), and truncates to at most `topK`
results, which are returned in non-increasing score order. -/
theorem c4_search_refines_spec (sims : String → List ℚ) (st : EngineState)
    (q : String) (k : ℕ) :
    search sims st q k = searchSpec sims st q k ∧
    (surfacedChunks (sims (clean_text q)) k).length =
      min (k * 2) (sims (clean_text q)).length ∧
    List.Pairwise (fun a b => b.score ≤ a.score)
      (resultsOf (search sims st q k)) ∧
    (resultsOf (search sims st q k)).length ≤ k := by
  refine ⟨search_eq_spec sims st q k, length_surfacedChunks _ _, ?_, ?_⟩
  · by_cases h : st.embeddingsBuilt = false
    · simp [search, h, resultsOf]
    · simp only [search, if_neg h, resultsOf]
      rw [List.pairwise_map]
      exact List.Pairwise.sublist (List.take_sublist _ _) (sortDesc_sorted _)
  · by_cases h : st.embeddingsBuilt = false
    · simp [search, h, resultsOf]
    · simp only [search, if_neg h, resultsOf]
      rw [List.length_map, List.length_take]
      exact min_le_left _ _

/-! ## The cleaning passes: timestamp and index-line removal -/

lemma matchTs_none_of_not_digit {c : Char} (h : isDigitChar c = false)
    (rest : List Char) : matchTs (c :: rest) = none := by
  simp [matchTs, tsPat, tsClockPat, matchPrefixAt, h]

lemma removeTsGo_id {l : List Char} (h : ∀ ch ∈ l, isDigitChar ch = false) :
    ∀ fuel, removeTsGo fuel l = l := by
  induction l with
  | nil => intro fuel; cases fuel <;> rfl
  | cons c rest ih =>
    intro fuel
    cases fuel with
    | zero => rfl
    | succ f =>
      simp only [removeTsGo, matchTs_none_of_not_digit (h c (by simp)) rest]
      exact congrArg _ (ih (fun ch hch => h ch (by simp [hch])) f)

lemma removeTs_id {l : List Char} (h : ∀ ch ∈ l, isDigitChar ch = false) :
    removeTs l = l :=
  removeTsGo_id h _

lemma splitNl_ne_nil (l : List Char) : splitNl l ≠ [] := by
  cases l with
  | nil => simp [splitNl]
  | cons c rest =>
    by_cases h : c = '\n'
    · simp [splitNl, h]
    · simp only [splitNl, if_neg h]
      cases hs : splitNl rest with
      | nil => simp
      | cons ln lns => simp

lemma joinNl_splitNl (l : List Char) : joinNl (splitNl l) = l := by
  induction l with
  | nil => rfl
  | cons c rest ih =>
    by_cases h : c = '\n'
    · subst h
      obtain ⟨ln, lns, hs⟩ := List.exists_cons_of_ne_nil (splitNl_ne_nil rest)
      show joinNl ([] :: splitNl rest) = '\n' :: rest
      rw [hs]
      show ([] : List Char) ++ '\n' :: joinNl (ln :: lns) = '\n' :: rest
      rw [List.nil_append, ← hs, ih]
    · simp only [splitNl, if_neg h]
      obtain ⟨ln, lns, hs⟩ := List.exists_cons_of_ne_nil (splitNl_ne_nil rest)
      rw [hs]
      rw [hs] at ih
      cases lns with
      | nil =>
        show c :: ln = c :: rest
        have : joinNl [ln] = ln := rfl
        rw [this] at ih
        rw [ih]
      | cons ln2 lns2 =>
        show (c :: ln) ++ '\n' :: joinNl (ln2 :: lns2) = c :: rest
        rw [← ih]
        rfl

lemma splitNl_chars {l : List Char} :
    ∀ ln ∈ splitNl l, ∀ ch ∈ ln, ch ∈ l := by
  induction l with
  | nil =>
    intro ln hln ch hch
    simp [splitNl] at hln
    subst hln
    simp at hch
  | cons c rest ih =>
    intro ln hln ch hch
    by_cases h : c = '\n'
    · subst h
      rw [show splitNl ('\n' :: rest) = [] :: splitNl rest from rfl] at hln
      rcases List.mem_cons.mp hln with rfl | hln
      · simp at hch
      · exact List.mem_cons_of_mem _ (ih ln hln ch hch)
    · simp only [splitNl, if_neg h] at hln
      obtain ⟨ln1, lns, hs⟩ := List.exists_cons_of_ne_nil (splitNl_ne_nil rest)
      rw [hs] at hln
      rcases List.mem_cons.mp hln with rfl | hln
      · rcases List.mem_cons.mp hch with rfl | hch
        · simp
        · refine List.mem_cons_of_mem _ (ih ln1 ?_ ch hch)
          rw [hs]
          exact List.mem_cons_self _ _
      · refine List.mem_cons_of_mem _ (ih ln ?_ ch hch)
        rw [hs]
        exact List.mem_cons_of_mem _ hln

lemma removeDigitLines_id {l : List Char}
    (h : ∀ ch ∈ l, isDigitChar ch = false) :
    removeDigitLines l = l := by
  unfold removeDigitLines
  have hln : ∀ ln ∈ splitNl l,
      (if isAllDigits ln then ([] : List Char) else ln) = ln := by
    intro ln hmem
    have hnad : ¬(isAllDigits ln = true) := by
      intro had
      unfold isAllDigits at had
      rw [Bool.and_eq_true] at had
      obtain ⟨hne, hall⟩ := had
      obtain ⟨ch0, rest0, rfl⟩ := List.exists_cons_of_ne_nil (by simpa using hne)
      have hd := h ch0 (splitNl_chars _ hmem ch0 (by simp))
      have h2 := List.all_eq_true.mp hall ch0 (by simp)
      rw [hd] at h2
      simp at h2
    rw [if_neg hnad]
  rw [List.map_congr_left hln, List.map_id', joinNl_splitNl]

/-! ## The cleaning passes: tag removal -/

lemma removeTagsGo_nil (fuel : ℕ) : removeTagsGo fuel [] = [] := by
  cases fuel <;> rfl

lemma removeTagsGo_succ_cons (f : ℕ) (c : Char) (rest : List Char) :
    removeTagsGo (f + 1) (c :: rest) =
      if c = '<' then
        if !(rest.takeWhile (fun d => !(d = '>'))).isEmpty &&
           !(rest.dropWhile (fun d => !(d = '>'))).isEmpty then
          removeTagsGo f (rest.dropWhile (fun d => !(d = '>'))).tail
        else c :: removeTagsGo f rest
      else c :: removeTagsGo f rest := rfl

lemma hasTag_cons (c : Char) (rest : List Char) :
    hasTag (c :: rest) =
      ((c = '<' && !(rest.takeWhile (fun d => !(d = '>'))).isEmpty &&
        !(rest.dropWhile (fun d => !(d = '>'))).isEmpty) || hasTag rest) := rfl

lemma len_dropWhile_le (p : Char → Bool) (l : List Char) :
    (l.dropWhile p).length ≤ l.length := by
  induction l with
  | nil => simp
  | cons c rest ih =>
    rw [List.dropWhile_cons]
    by_cases h : p c = true
    · rw [if_pos h]
      exact ih.trans (by simp)
    · rw [if_neg h]

lemma isEmpty_eq_nil {l : List Char} (h : (!l.isEmpty) = false) : l = [] := by
  cases l with
  | nil => rfl
  | cons a as => simp at h

lemma removeTagsGo_sublist : ∀ (fuel : ℕ) (l : List Char),
    (removeTagsGo fuel l).Sublist l := by
  intro fuel
  induction fuel with
  | zero => intro l; exact List.Sublist.refl _
  | succ f ih =>
    intro l
    cases l with
    | nil => exact List.Sublist.refl _
    | cons c rest =>
      rw [removeTagsGo_succ_cons]
      by_cases hc : c = '<'
      · rw [if_pos hc]
        by_cases hcond : (!(rest.takeWhile (fun d => !(d = '>'))).isEmpty &&
            !(rest.dropWhile (fun d => !(d = '>'))).isEmpty) = true
        · rw [if_pos hcond]
          refine (ih _).trans (List.Sublist.trans ?_ (List.sublist_cons_self c rest))
          exact (List.tail_sublist _).trans (List.dropWhile_sublist _)
        · rw [if_neg hcond]
          exact (ih rest).cons₂ c
      · rw [if_neg hc]
        exact (ih rest).cons₂ c

lemma removeTagsGo_id {l : List Char} (h : hasTag l = false) :
    ∀ fuel, removeTagsGo fuel l = l := by
  induction l with
  | nil => intro fuel; exact removeTagsGo_nil fuel
  | cons c rest ih =>
    intro fuel
    cases fuel with
    | zero => rfl
    | succ f =>
      rw [hasTag_cons] at h
      rw [Bool.or_eq_false_iff] at h
      obtain ⟨hcond, hrest⟩ := h
      rw [removeTagsGo_succ_cons]
      by_cases hc : c = '<'
      · subst hc
        rw [if_pos rfl]
        have hAB : (!(rest.takeWhile (fun d => !(d = '>'))).isEmpty &&
            !(rest.dropWhile (fun d => !(d = '>'))).isEmpty) = false := by
          simpa using hcond
        rw [if_neg (by simp [hAB]), ih hrest f]
      · rw [if_neg hc, ih hrest f]

lemma gt_mem_of_dropWhile {v : List Char}
    (h : ¬(v.dropWhile (fun d => !(d = '>')) = [])) : '>' ∈ v := by
  induction v with
  | nil => simp [List.dropWhile] at h
  | cons c v ih =>
    rw [List.dropWhile_cons] at h
    by_cases hc : (!(c = '>')) = true
    · rw [if_pos hc] at h
      exact List.mem_cons_of_mem _ (ih h)
    · have : c = '>' := by simpa using hc
      subst this
      simp

lemma dropWhile_ne_nil_of_gt_mem {v : List Char} (h : '>' ∈ v) :
    ¬(v.dropWhile (fun d => !(d = '>')) = []) := by
  induction v with
  | nil => simp at h
  | cons c v ih =>
    rw [List.dropWhile_cons]
    by_cases hc : (!(c = '>')) = true
    · rw [if_pos hc]
      refine ih ?_
      rcases List.mem_cons.mp h with rfl | hm
      · simp at hc
      · exact hm
    · rw [if_neg hc]
      simp

lemma hasTag_append_of_right (t : List Char) {v : List Char}
    (h : hasTag v = true) : hasTag (t ++ v) = true := by
  induction t with
  | nil => exact h
  | cons c t ih =>
    rw [List.cons_append, hasTag_cons, ih, Bool.or_true]

lemma hasTag_append_of_left {v : List Char} (h : hasTag v = true)
    (u : List Char) : hasTag (v ++ u) = true := by
  induction v with
  | nil => simp [hasTag] at h
  | cons c v ih =>
    rw [List.cons_append, hasTag_cons]
    rw [hasTag_cons] at h
    rcases Bool.or_eq_true_iff.mp h with hcond | hrest
    · refine Bool.or_eq_true_iff.mpr (Or.inl ?_)
      simp only [Bool.and_eq_true] at hcond
      obtain ⟨⟨hc, hA⟩, hB⟩ := hcond
      simp only [Bool.and_eq_true]
      refine ⟨⟨hc, ?_⟩, ?_⟩
      · cases v with
        | nil => simp at hA
        | cons x vv =>
          rw [List.cons_append, List.takeWhile_cons]
          rw [List.takeWhile_cons] at hA
          by_cases hx : (!(x = '>')) = true
          · rw [if_pos hx]
            simp
          · rw [if_neg hx] at hA
            simp at hA
      · have hgt : '>' ∈ v := gt_mem_of_dropWhile (by simpa using hB)
        have hgt2 : '>' ∈ v ++ u := List.mem_append_left _ hgt
        simpa using dropWhile_ne_nil_of_gt_mem hgt2
    · exact Bool.or_eq_true_iff.mpr (Or.inr (ih hrest))

lemma hasTag_mid {m : List Char} (h : hasTag m = true) (t u : List Char) :
    hasTag (t ++ m ++ u) = true := by
  rw [List.append_assoc]
  exact hasTag_append_of_right t (hasTag_append_of_left h u)

lemma hasTag_removeTagsGo : ∀ (fuel : ℕ) (l : List Char), l.length ≤ fuel →
    hasTag (removeTagsGo fuel l) = false := by
  intro fuel
  induction fuel with
  | zero =>
    intro l hl
    have hnil : l = [] := List.eq_nil_of_length_eq_zero (Nat.le_zero.mp hl)
    subst hnil
    rfl
  | succ f ih =>
    intro l hl
    cases l with
    | nil => rfl
    | cons c rest =>
      have hrl : rest.length ≤ f := by
        simp only [List.length_cons] at hl
        omega
      rw [removeTagsGo_succ_cons]
      by_cases hc : c = '<'
      · rw [if_pos hc]
        by_cases hcond : (!(rest.takeWhile (fun d => !(d = '>'))).isEmpty &&
            !(rest.dropWhile (fun d => !(d = '>'))).isEmpty) = true
        · rw [if_pos hcond]
          refine ih _ ?_
          have h1 := len_dropWhile_le (fun d => !(d = '>')) rest
          have h2 : (rest.dropWhile (fun d => !(d = '>'))).tail.length ≤
              (rest.dropWhile (fun d => !(d = '>'))).length := by
            cases rest.dropWhile (fun d => !(d = '>')) <;> simp
          omega
        · rw [if_neg hcond]
          rw [hasTag_cons, ih rest hrl, Bool.or_false]
          cases hA : (!(rest.takeWhile (fun d => !(d = '>'))).isEmpty) with
          | false =>
            have htw : rest.takeWhile (fun d => !(d = '>')) = [] := isEmpty_eq_nil hA
            cases rest with
            | nil =>
              rw [removeTagsGo_nil]
              simp
            | cons r0 rr =>
              rw [List.takeWhile_cons] at htw
              have hr0 : r0 = '>' := by
                by_cases hcon : (!(r0 = '>')) = true
                · rw [if_pos hcon] at htw
                  simp at htw
                · simpa using hcon
              subst hr0
              cases f with
              | zero => simp at hrl
              | succ f2 =>
                rw [removeTagsGo_succ_cons, if_neg (by decide : ¬('>' = '<'))]
                simp [List.takeWhile_cons]
          | true =>
            cases hB : (!(rest.dropWhile (fun d => !(d = '>'))).isEmpty) with
            | true =>
              refine absurd ?_ hcond
              rw [hA, hB]
              rfl
            | false =>
              have hdw : rest.dropWhile (fun d => !(d = '>')) = [] :=
                isEmpty_eq_nil hB
              have hnot : ¬('>' ∈ removeTagsGo f rest) := by
                intro hm
                exact dropWhile_ne_nil_of_gt_mem
                  ((removeTagsGo_sublist f rest).subset hm) hdw
              have hXdrop :
                  (removeTagsGo f rest).dropWhile (fun d => !(d = '>')) = [] := by
                by_contra hne
                exact hnot (gt_mem_of_dropWhile hne)
              rw [hXdrop]
              simp
      · rw [if_neg hc]
        rw [hasTag_cons, ih rest hrl, Bool.or_false]
        simp [hc]

lemma hasTag_removeTags (l : List Char) : hasTag (removeTags l) = false :=
  hasTag_removeTagsGo _ _ le_rfl

lemma removeTags_of_not_hasTag {l : List Char} (h : hasTag l = false) :
    removeTags l = l :=
  removeTagsGo_id h _

/-! ## The cleaning passes: whitespace collapsing -/

lemma collapseGoF_cons (b : Bool) (c : Char) (rest : List Char) :
    collapseGoF b (c :: rest) =
      if isSpaceChar c then
        if b then collapseGoF true rest else ' ' :: collapseGoF true rest
      else c :: collapseGoF false rest := rfl

lemma collapse_chars {l : List Char} {b : Bool} :
    ∀ y ∈ collapseGoF b l, y ∈ l ∨ y = ' ' := by
  induction l generalizing b with
  | nil => intro y hy; simp [collapseGoF] at hy
  | cons c rest ih =>
    intro y hy
    rw [collapseGoF_cons] at hy
    by_cases hs : isSpaceChar c = true
    · rw [if_pos hs] at hy
      by_cases hb : b = true
      · rw [if_pos hb] at hy
        rcases ih y hy with h | h
        · exact Or.inl (List.mem_cons_of_mem _ h)
        · exact Or.inr h
      · rw [if_neg hb] at hy
        rcases List.mem_cons.mp hy with rfl | hy
        · exact Or.inr rfl
        · rcases ih y hy with h | h
          · exact Or.inl (List.mem_cons_of_mem _ h)
          · exact Or.inr h
    · rw [if_neg hs] at hy
      rcases List.mem_cons.mp hy with rfl | hy
      · exact Or.inl (List.mem_cons_self _ _)
      · rcases ih y hy with h | h
        · exact Or.inl (List.mem_cons_of_mem _ h)
        · exact Or.inr h

lemma collapse_ws_space {l : List Char} {b : Bool} :
    ∀ y ∈ collapseGoF b l, isSpaceChar y = true → y = ' ' := by
  induction l generalizing b with
  | nil => intro y hy; simp [collapseGoF] at hy
  | cons c rest ih =>
    intro y hy hwy
    rw [collapseGoF_cons] at hy
    by_cases hs : isSpaceChar c = true
    · rw [if_pos hs] at hy
      by_cases hb : b = true
      · rw [if_pos hb] at hy
        exact ih y hy hwy
      · rw [if_neg hb] at hy
        rcases List.mem_cons.mp hy with rfl | hy
        · rfl
        · exact ih y hy hwy
    · rw [if_neg hs] at hy
      rcases List.mem_cons.mp hy with rfl | hy
      · exact absurd hwy (by simp [hs])
      · exact ih y hy hwy

lemma collapse_head_true {l : List Char} :
    ∀ y, (collapseGoF true l).head? = some y → isSpaceChar y = false := by
  induction l with
  | nil => intro y hy; simp [collapseGoF] at hy
  | cons c rest ih =>
    intro y hy
    rw [collapseGoF_cons] at hy
    by_cases hs : isSpaceChar c = true
    · rw [if_pos hs, if_pos rfl] at hy
      exact ih y hy
    · rw [if_neg hs] at hy
      have hyc : c = y := by simpa using hy
      subst hyc
      cases hval : isSpaceChar c
      · rfl
      · exact absurd hval hs

lemma collapse_chain {l : List Char} {b : Bool} :
    List.Chain' (fun a d => ¬(isSpaceChar a = true ∧ isSpaceChar d = true))
      (collapseGoF b l) := by
  induction l generalizing b with
  | nil => simp [collapseGoF]
  | cons c rest ih =>
    rw [collapseGoF_cons]
    by_cases hs : isSpaceChar c = true
    · rw [if_pos hs]
      by_cases hb : b = true
      · rw [if_pos hb]
        exact ih
      · rw [if_neg hb]
        refine List.chain'_cons'.mpr ⟨?_, ih⟩
        intro y hy
        have := collapse_head_true y (Option.mem_def.mp hy)
        intro hcon
        rw [this] at hcon
        exact absurd hcon.2 (by simp)
    · rw [if_neg hs]
      refine List.chain'_cons'.mpr ⟨?_, ih⟩
      intro y _
      intro hcon
      exact absurd hcon.1 (by simp [hs])

/-- The shape `re.sub` whitespace collapsing plus `strip` preserves: every
whitespace character is a single space and no two are adjacent. -/
def CollapsedP (l : List Char) : Prop :=
  (∀ y ∈ l, isSpaceChar y = true → y = ' ') ∧
  List.Chain' (fun a d => ¬(isSpaceChar a = true ∧ isSpaceChar d = true)) l

lemma collapsedP_collapse (b : Bool) (l : List Char) :
    CollapsedP (collapseGoF b l) :=
  ⟨collapse_ws_space, collapse_chain⟩

lemma collapse_id_aux {l : List Char} (h : CollapsedP l) :
    collapseGoF false l = l ∧
      ((∀ y, l.head? = some y → isSpaceChar y = false) →
        collapseGoF true l = l) := by
  induction l with
  | nil => exact ⟨rfl, fun _ => rfl⟩
  | cons c rest ih =>
    obtain ⟨hws, hchain⟩ := h
    have hrest : CollapsedP rest :=
      ⟨fun y hy => hws y (List.mem_cons_of_mem _ hy), hchain.tail⟩
    have ihr := ih hrest
    constructor
    · rw [collapseGoF_cons]
      by_cases hs : isSpaceChar c = true
      · rw [if_pos hs, if_neg (by simp : ¬(false = true))]
        have hceq : c = ' ' := hws c (List.mem_cons_self _ _) hs
        have hhead : ∀ y, rest.head? = some y → isSpaceChar y = false := by
          intro y hy
          have hR := (List.chain'_cons'.mp hchain).1 y (Option.mem_def.mpr hy)
          by_contra hcon
          exact hR ⟨hs, by simpa using hcon⟩
        rw [ihr.2 hhead, hceq]
      · rw [if_neg hs, ihr.1]
    · intro hhead0
      rw [collapseGoF_cons]
      have hcns : isSpaceChar c = false := hhead0 c rfl
      rw [if_neg (by simp [hcns]), ihr.1]

lemma collapse_of_collapsedP {l : List Char} (h : CollapsedP l) :
    collapseWs l = l :=
  (collapse_id_aux h).1

/-! ## The cleaning passes: strip -/

lemma eq_stripR_append (m : List Char) :
    m = (m.reverse.dropWhile isSpaceChar).reverse ++
      (m.reverse.takeWhile isSpaceChar).reverse := by
  have h2 : (m.reverse.takeWhile isSpaceChar ++
      m.reverse.dropWhile isSpaceChar).reverse = m.reverse.reverse := by
    rw [List.takeWhile_append_dropWhile]
  rw [List.reverse_append, List.reverse_reverse] at h2
  exact h2.symm

lemma pyStrip_decomp (l : List Char) : ∃ t u, l = t ++ pyStrip l ++ u := by
  refine ⟨l.takeWhile isSpaceChar,
    ((l.dropWhile isSpaceChar).reverse.takeWhile isSpaceChar).reverse, ?_⟩
  calc l = l.takeWhile isSpaceChar ++ l.dropWhile isSpaceChar :=
        (List.takeWhile_append_dropWhile _ _).symm
    _ = l.takeWhile isSpaceChar ++
        (pyStrip l ++ ((l.dropWhile isSpaceChar).reverse.takeWhile
          isSpaceChar).reverse) :=
        congrArg _ (eq_stripR_append (l.dropWhile isSpaceChar))
    _ = l.takeWhile isSpaceChar ++ pyStrip l ++
        ((l.dropWhile isSpaceChar).reverse.takeWhile isSpaceChar).reverse :=
        (List.append_assoc _ _ _).symm

lemma pyStrip_subset {l : List Char} : ∀ y ∈ pyStrip l, y ∈ l := by
  intro y hy
  obtain ⟨t, u, hdec⟩ := pyStrip_decomp l
  rw [hdec]
  exact List.mem_append_left _ (List.mem_append_right _ hy)

lemma hasTag_pyStrip {l : List Char} (h : hasTag (pyStrip l) = true) :
    hasTag l = true := by
  obtain ⟨t, u, hdec⟩ := pyStrip_decomp l
  rw [hdec]
  exact hasTag_mid h t u

lemma chain'_dropWhile {R : Char → Char → Prop} {l : List Char}
    (h : List.Chain' R l) (p : Char → Bool) :
    List.Chain' R (l.dropWhile p) := by
  induction l with
  | nil => simp
  | cons c rest ih =>
    rw [List.dropWhile_cons]
    by_cases hc : p c = true
    · rw [if_pos hc]
      exact ih h.tail
    · rw [if_neg hc]
      exact h

lemma collapsedP_pyStrip {l : List Char} (h : CollapsedP l) :
    CollapsedP (pyStrip l) := by
  obtain ⟨hws, hchain⟩ := h
  constructor
  · intro y hy hwy
    exact hws y (pyStrip_subset y hy) hwy
  · show List.Chain' _ ((((l.dropWhile isSpaceChar).reverse).dropWhile isSpaceChar).reverse)
    have h1 := chain'_dropWhile hchain isSpaceChar
    have h2 : List.Chain'
        (fun a d => ¬(isSpaceChar a = true ∧ isSpaceChar d = true))
        ((l.dropWhile isSpaceChar).reverse) := by
      rw [List.chain'_reverse]
      exact h1.imp (fun a d had hc => had ⟨hc.2, hc.1⟩)
    have h3 := chain'_dropWhile h2 isSpaceChar
    rw [List.chain'_reverse]
    exact h3.imp (fun a d had hc => had ⟨hc.2, hc.1⟩)

lemma dropWhile_head_false_eq {l : List Char} {p : Char → Bool}
    (h : ∀ y, l.head? = some y → p y = false) : l.dropWhile p = l := by
  cases l with
  | nil => rfl
  | cons c rest =>
    rw [List.dropWhile_cons, if_neg (by simp [h c rfl])]

lemma head_dropWhile_false (p : Char → Bool) (l : List Char) :
    ∀ y, (l.dropWhile p).head? = some y → p y = false := by
  induction l with
  | nil => intro y hy; simp at hy
  | cons c rest ih =>
    intro y hy
    rw [List.dropWhile_cons] at hy
    by_cases hc : p c = true
    · rw [if_pos hc] at hy
      exact ih y hy
    · rw [if_neg hc] at hy
      have hyc : c = y := by simpa using hy
      subst hyc
      cases hval : p c
      · rfl
      · exact absurd hval hc

/-- Right-hand `strip`: drop trailing whitespace. -/
def stripR (l : List Char) : List Char :=
  (l.reverse.dropWhile isSpaceChar).reverse

lemma stripL_stripL (l : List Char) :
    (l.dropWhile isSpaceChar).dropWhile isSpaceChar = l.dropWhile isSpaceChar :=
  dropWhile_head_false_eq (head_dropWhile_false _ _)

lemma stripR_idem (m : List Char) : stripR (stripR m) = stripR m := by
  unfold stripR
  rw [List.reverse_reverse, stripL_stripL]

lemma eq_stripR_append2 (m : List Char) :
    m = stripR m ++ (m.reverse.takeWhile isSpaceChar).reverse :=
  eq_stripR_append m

lemma head_stripR (m : List Char) (h : stripR m ≠ []) :
    (stripR m).head? = m.head? := by
  obtain ⟨c, cs, hc⟩ := List.exists_cons_of_ne_nil h
  conv_rhs => rw [eq_stripR_append2 m]
  rw [hc]
  rfl

lemma stripL_stripR {m : List Char}
    (hm : ∀ y, m.head? = some y → isSpaceChar y = false) :
    (stripR m).dropWhile isSpaceChar = stripR m := by
  refine dropWhile_head_false_eq ?_
  intro y hy
  have hne : stripR m ≠ [] := by
    intro h0
    rw [h0] at hy
    simp at hy
  rw [head_stripR m hne] at hy
  exact hm y hy

lemma pyStrip_idem (l : List Char) : pyStrip (pyStrip l) = pyStrip l := by
  show stripR ((stripR (l.dropWhile isSpaceChar)).dropWhile isSpaceChar) =
    pyStrip l
  rw [stripL_stripR (head_dropWhile_false _ _), stripR_idem]
  rfl

/-! ## Claims about cleaning idempotence and whitespace queries -/

lemma hasTag_collapse {l : List Char} {b : Bool}
    (h : hasTag (collapseGoF b l) = true) : hasTag l = true := by
  induction l generalizing b with
  | nil => simp [collapseGoF, hasTag] at h
  | cons c rest ih =>
    rw [collapseGoF_cons] at h
    by_cases hs : isSpaceChar c = true
    · rw [if_pos hs] at h
      by_cases hb : b = true
      · rw [if_pos hb] at h
        rw [hasTag_cons]
        exact Bool.or_eq_true_iff.mpr (Or.inr (ih h))
      · rw [if_neg hb, hasTag_cons] at h
        rcases Bool.or_eq_true_iff.mp h with hcond | hX
        · simp at hcond
        · rw [hasTag_cons]
          exact Bool.or_eq_true_iff.mpr (Or.inr (ih hX))
    · rw [if_neg hs, hasTag_cons] at h
      rcases Bool.or_eq_true_iff.mp h with hcond | hX
      · rw [hasTag_cons]
        refine Bool.or_eq_true_iff.mpr (Or.inl ?_)
        simp only [Bool.and_eq_true] at hcond ⊢
        obtain ⟨⟨hc, hA⟩, hB⟩ := hcond
        refine ⟨⟨hc, ?_⟩, ?_⟩
        · cases rest with
          | nil => simp [collapseGoF] at hA
          | cons r0 rr =>
            rw [collapseGoF_cons] at hA
            by_cases hr0 : isSpaceChar r0 = true
            · have hr0ne : (!(r0 = '>')) = true := by
                by_cases he : r0 = '>'
                · subst he
                  exact absurd hr0 (by decide)
                · simpa using he
              rw [List.takeWhile_cons, if_pos hr0ne]
              simp
            · rw [if_neg hr0] at hA
              rw [List.takeWhile_cons] at hA
              by_cases hp : (!(r0 = '>')) = true
              · rw [List.takeWhile_cons, if_pos hp]
                simp
              · rw [if_neg hp] at hA
                simp at hA
        · have hgt : '>' ∈ collapseGoF false rest :=
            gt_mem_of_dropWhile (by simpa using hB)
          rcases collapse_chars '>' hgt with hm | hm
          · simpa using dropWhile_ne_nil_of_gt_mem hm
          · exact absurd hm (by decide)
      · rw [hasTag_cons]
        exact Bool.or_eq_true_iff.mpr (Or.inr (ih hX))

lemma removeTags_sub {l : List Char} : ∀ y ∈ removeTags l, y ∈ l :=
  fun _ hy => (removeTagsGo_sublist _ _).subset hy

/-- Claim C5, counterexample: cleaning is not idempotent.  The text
`" 12"` cleans to `"12"` (the leading space keeps the digit-line pattern
from matching, then whitespace collapsing and stripping expose it), and a
second cleaning removes the now digit-only line entirely. -/
theorem c5_counterexample :
    clean_text " 12" = "12" ∧ clean_text (clean_text " 12") = "" ∧
    clean_text (clean_text " 12") ≠ clean_text " 12" := by
  refine ⟨by decide, by decide, by decide⟩

/-- Claim C5, amended: cleaning is idempotent on every text containing no
decimal digit (a second application can only differ through the
digit-dependent passes - digit-only-line removal and timestamp removal,
whose patterns need digits; without digits all four passes are stable). -/
theorem c5_clean_idempotent_no_digits (s : String)
    (h : ∀ ch ∈ s.data, isDigitChar ch = false) :
    clean_text (clean_text s) = clean_text s := by
  have hZdef : (clean_text s).data =
      pyStrip (collapseWs (removeTags s.data)) := by
    show cleanChars s.data = _
    unfold cleanChars
    rw [removeTs_id h, removeDigitLines_id h]
  have hZnd : ∀ ch ∈ (clean_text s).data, isDigitChar ch = false := by
    rw [hZdef]
    intro ch hch
    have hch2 := pyStrip_subset ch hch
    rcases collapse_chars ch hch2 with hm | hm
    · exact h ch (removeTags_sub ch hm)
    · rw [hm]
      decide
  have hZnt : hasTag (clean_text s).data = false := by
    rw [hZdef]
    cases hval : hasTag (pyStrip (collapseWs (removeTags s.data)))
    · rfl
    · exact absurd (hasTag_removeTags s.data)
        (by simp [hasTag_collapse (hasTag_pyStrip hval)])
  have hZcp : CollapsedP (clean_text s).data := by
    rw [hZdef]
    exact collapsedP_pyStrip (collapsedP_collapse false _)
  show String.mk (cleanChars (clean_text s).data) = clean_text s
  unfold cleanChars
  rw [removeTs_id hZnd, removeDigitLines_id hZnd,
    removeTags_of_not_hasTag hZnt, collapse_of_collapsedP hZcp]
  rw [hZdef, pyStrip_idem, ← hZdef]

/-- Witness for the amended claim C5 on a digit-free text with markup and
irregular spacing. -/
theorem c5_witness :
    (∀ ch ∈ "an  <i>example</i>  text".data, isDigitChar ch = false) ∧
    clean_text (clean_text "an  <i>example</i>  text") =
      clean_text "an  <i>example</i>  text" :=
  ⟨by decide, c5_clean_idempotent_no_digits _ (by decide)⟩

lemma ws_not_digit {c : Char} (h : isSpaceChar c = true) :
    isDigitChar c = false := by
  simp only [isSpaceChar, Bool.or_eq_true, decide_eq_true_eq] at h
  rcases h with ((((h | h) | h) | h) | h) | h <;> subst h <;> decide

lemma removeTagsGo_id_no_lt {l : List Char} (h : ∀ ch ∈ l, ¬(ch = '<')) :
    ∀ fuel, removeTagsGo fuel l = l := by
  induction l with
  | nil => intro fuel; exact removeTagsGo_nil fuel
  | cons c rest ih =>
    intro fuel
    cases fuel with
    | zero => rfl
    | succ f =>
      rw [removeTagsGo_succ_cons, if_neg (h c (List.mem_cons_self _ _))]
      exact congrArg _ (ih (fun ch hch => h ch (List.mem_cons_of_mem _ hch)) f)

lemma removeTags_id_no_lt {l : List Char} (h : ∀ ch ∈ l, ¬(ch = '<')) :
    removeTags l = l :=
  removeTagsGo_id_no_lt h _

lemma collapse_true_allWs {l : List Char}
    (h : ∀ ch ∈ l, isSpaceChar ch = true) : collapseGoF true l = [] := by
  induction l with
  | nil => rfl
  | cons c rest ih =>
    rw [collapseGoF_cons, if_pos (h c (List.mem_cons_self _ _)), if_pos rfl]
    exact ih (fun ch hch => h ch (List.mem_cons_of_mem _ hch))

lemma clean_text_ws {q : String} (h : ∀ ch ∈ q.data, isSpaceChar ch = true) :
    clean_text q = "" := by
  unfold clean_text cleanChars
  rw [removeTs_id (fun ch hch => ws_not_digit (h ch hch)),
    removeDigitLines_id (fun ch hch => ws_not_digit (h ch hch)),
    removeTags_id_no_lt (fun ch hch hlt => by
      have hw := h ch hch
      rw [hlt] at hw
      exact absurd hw (by decide))]
  cases hq : q.data with
  | nil => rfl
  | cons c rest =>
    show String.mk (pyStrip (collapseGoF false (c :: rest))) = ""
    have hall : ∀ ch ∈ c :: rest, isSpaceChar ch = true := by
      rw [← hq]
      exact h
    rw [collapseGoF_cons, if_pos (hall c (List.mem_cons_self _ _)),
      if_neg (by simp : ¬(false = true)),
      collapse_true_allWs (fun ch hch => hall ch (List.mem_cons_of_mem _ hch))]
    rfl

/-- Claim C2, amended: an empty or whitespace-only query on any state is
cleaned to the empty string, so `search` treats it exactly as the empty
query (no exception; the results are whatever the ranking produces for the
empty cleaned query, in general a non-empty list on a built index). -/
theorem c2_ws_query_like_empty (sims : String → List ℚ) (st : EngineState)
    (q : String) (k : ℕ) (h : ∀ ch ∈ q.data, isSpaceChar ch = true) :
    search sims st q k = search sims st "" k := by
  unfold search
  rw [clean_text_ws h, show clean_text "" = "" from rfl]

/-- Witness for the amended claim C2 at the single-space query. -/
theorem c2_witness :
    (∀ ch ∈ " ".data, isSpaceChar ch = true) ∧
    search (fun _ => [(0 : ℚ)]) (EngineState.mk true [0] ["doc0"]) " " 5 =
      search (fun _ => [(0 : ℚ)]) (EngineState.mk true [0] ["doc0"]) "" 5 :=
  ⟨by decide, c2_ws_query_like_empty _ _ " " 5 (by decide)⟩

end SubtitleSearch
